import Mathlib

/-!
Verification of the core algorithms of `apgujeong_rank_app.py` (a Streamlit
app ranking apartment units by a derived valuation).

The shallow embedding below translates the program's pure computational
kernel into Lean:

* `contiguous_ranges` — the floor-range compressor (source lines 256-270);
* `clean_price`, `normalize` — the valuation normalizer (source lines
  197-208 and the `감정가_클린` derivation in `load_data`, lines 235-239);
* `extract_floor` — the floor heuristic (source lines 243-254);
* `rankMin` / `tieCount` — the pandas `rank(method="min", ascending=False)`
  and `groupby(...).transform("size")` block (source lines 409-413);
* the selected-unit rank lookup (source lines 419-427) and the co-rank
  group filter (source lines 479-483);
* the nearest-value pool exclusion filter (source lines 539-544) and the
  TOP10 lexicographic sort (source lines 578-581).

Numeric values are modelled as rationals (`ℚ`); strings as `List Char`.
-/

namespace Apg

/-! ### Contiguous range compression (source `contiguous_ranges`, lines 256-270)

The Python function folds over the input keeping a current interval
`(start, prev)`; `crGo` is that loop with the state made explicit, and
`contiguous_ranges` handles the initial `start is None` state. -/

def crGo : List Int → Int → Int → List (Int × Int)
  | [], start, prev => [(start, prev)]
  | x :: xs, start, prev =>
      if x = prev + 1 then crGo xs start x
      else (start, prev) :: crGo xs x x

def contiguous_ranges : List Int → List (Int × Int)
  | [] => []
  | x :: xs => crGo xs x x

/-- Integer membership in a list of closed intervals. -/
def inRanges (rs : List (Int × Int)) (n : Int) : Prop :=
  ∃ p ∈ rs, p.1 ≤ n ∧ n ≤ p.2

instance (rs : List (Int × Int)) (n : Int) : Decidable (inRanges rs n) := by
  unfold inRanges; infer_instance

theorem crGo_head : ∀ (xs : List Int) (s p : Int),
    ∃ e r, crGo xs s p = (s, e) :: r := by
  intro xs
  induction xs with
  | nil => intro s p; exact ⟨p, [], rfl⟩
  | cons x xs ih =>
      intro s p
      by_cases h : x = p + 1
      · simpa [crGo, h] using ih s x
      · exact ⟨p, crGo xs x x, by simp [crGo, h]⟩

theorem crGo_bounds : ∀ (xs : List Int) (s p : Int), s ≤ p →
    xs.Chain' (· < ·) → (p :: xs).Chain' (· < ·) →
    ∀ q ∈ crGo xs s p, q.1 ≤ q.2 := by
  intro xs
  induction xs with
  | nil => intro s p hsp _ _ q hq; simp only [crGo, List.mem_singleton] at hq; subst hq; exact hsp
  | cons x xs ih =>
      intro s p hsp hch hch2 q hq
      have hpx : p < x := (List.chain'_cons.mp hch2).1
      have hxs : (x :: xs).Chain' (· < ·) := hch
      by_cases h : x = p + 1
      · rw [crGo, if_pos h] at hq
        exact ih s x (le_trans hsp (le_of_lt hpx)) (List.chain'_cons'.mp hxs).2 hxs q hq
      · rw [crGo, if_neg h] at hq
        rcases List.mem_cons.mp hq with rfl | hq
        · exact hsp
        · exact ih x x le_rfl (List.chain'_cons'.mp hxs).2 hxs q hq

theorem crGo_gaps : ∀ (xs : List Int) (s p : Int), s ≤ p →
    (p :: xs).Chain' (· < ·) →
    (crGo xs s p).Chain' (fun a b => a.2 + 1 < b.1) := by
  intro xs
  induction xs with
  | nil => intro s p _ _; simp [crGo]
  | cons x xs ih =>
      intro s p hsp hch
      have hpx : p < x := (List.chain'_cons.mp hch).1
      have hxs : (x :: xs).Chain' (· < ·) := (List.chain'_cons.mp hch).2
      by_cases h : x = p + 1
      · rw [crGo, if_pos h]
        exact ih s x (le_trans hsp (le_of_lt hpx)) hxs
      · rw [crGo, if_neg h]
        obtain ⟨e, r, her⟩ := crGo_head xs x x
        have htail := ih x x le_rfl hxs
        rw [her] at htail ⊢
        refine List.chain'_cons.mpr ⟨?_, htail⟩
        omega

theorem crGo_mem : ∀ (xs : List Int) (s p : Int), s ≤ p →
    (p :: xs).Chain' (· < ·) →
    ∀ n : Int, inRanges (crGo xs s p) n ↔ (s ≤ n ∧ n ≤ p) ∨ n ∈ xs := by
  intro xs
  induction xs with
  | nil =>
      intro s p _ _ n
      simp [crGo, inRanges]
  | cons x xs ih =>
      intro s p hsp hch n
      have hpx : p < x := (List.chain'_cons.mp hch).1
      have hxs : (x :: xs).Chain' (· < ·) := (List.chain'_cons.mp hch).2
      by_cases h : x = p + 1
      · rw [crGo, if_pos h]
        rw [ih s x (le_trans hsp (le_of_lt hpx)) hxs n]
        subst h
        constructor
        · rintro (⟨h1, h2⟩ | hm)
          · rcases lt_or_le n (p + 1) with hn | hn
            · exact Or.inl ⟨h1, by omega⟩
            · exact Or.inr (List.mem_cons.mpr (Or.inl (by omega)))
          · exact Or.inr (List.mem_cons.mpr (Or.inr hm))
        · rintro (⟨h1, h2⟩ | hm)
          · exact Or.inl ⟨h1, by omega⟩
          · rcases List.mem_cons.mp hm with rfl | hm
            · exact Or.inl ⟨by omega, le_rfl⟩
            · exact Or.inr hm
      · rw [crGo, if_neg h]
        have hrec := ih x x le_rfl hxs n
        constructor
        · rintro ⟨q, hq, hq1, hq2⟩
          rcases List.mem_cons.mp hq with rfl | hq
          · exact Or.inl ⟨hq1, hq2⟩
          · rcases (hrec.mp ⟨q, hq, hq1, hq2⟩) with ⟨h1, h2⟩ | hm
            · exact Or.inr (List.mem_cons.mpr (Or.inl (by omega)))
            · exact Or.inr (List.mem_cons.mpr (Or.inr hm))
        · rintro (⟨h1, h2⟩ | hm)
          · exact ⟨(s, p), List.mem_cons_self _ _, h1, h2⟩
          · rcases List.mem_cons.mp hm with rfl | hm
            · obtain ⟨q, hq, hq1, hq2⟩ := hrec.mpr (Or.inl ⟨le_rfl, le_rfl⟩)
              exact ⟨q, List.mem_cons.mpr (Or.inr hq), hq1, hq2⟩
            · obtain ⟨q, hq, hq1, hq2⟩ := hrec.mpr (Or.inr hm)
              exact ⟨q, List.mem_cons.mpr (Or.inr hq), hq1, hq2⟩

theorem chain'_mono_mem {α : Type} {R S : α → α → Prop} :
    ∀ l : List α, (∀ a ∈ l, ∀ b ∈ l, R a b → S a b) → l.Chain' R → l.Chain' S
  | [], _, _ => List.chain'_nil
  | [_], _, _ => List.chain'_singleton _
  | a :: b :: l, h, hc => by
      rw [List.chain'_cons] at hc ⊢
      refine ⟨h a (List.mem_cons_self _ _) b (List.mem_cons_of_mem _ (List.mem_cons_self _ _)) hc.1, ?_⟩
      exact chain'_mono_mem (b :: l)
        (fun x hx y hy => h x (List.mem_cons_of_mem _ hx) y (List.mem_cons_of_mem _ hy)) hc.2

/-- C2: Contiguous range compression correctness and totality: on a strictly
increasing input list, `contiguous_ranges` returns intervals that are
non-empty (`s ≤ e`), separated by genuine gaps (`e + 1 < s'`, hence sorted
ascending by start, pairwise non-overlapping, non-adjacent and maximal),
whose integer members are exactly the input elements; the empty input gives
the empty output, and `[7,8,9,11,15,16]` compresses to
`[(7,9),(11,11),(15,16)]`. -/
theorem contiguous_ranges_spec (l : List Int) (hl : l.Chain' (· < ·)) :
    (∀ q ∈ contiguous_ranges l, q.1 ≤ q.2) ∧
    (contiguous_ranges l).Chain' (fun a b => a.2 + 1 < b.1) ∧
    (contiguous_ranges l).Chain' (fun a b => a.1 < b.1) ∧
    (∀ n : Int, inRanges (contiguous_ranges l) n ↔ n ∈ l) ∧
    contiguous_ranges [] = [] ∧
    contiguous_ranges [7, 8, 9, 11, 15, 16] = [(7, 9), (11, 11), (15, 16)] := by
  have main : (∀ q ∈ contiguous_ranges l, q.1 ≤ q.2) ∧
      (contiguous_ranges l).Chain' (fun a b => a.2 + 1 < b.1) ∧
      (∀ n : Int, inRanges (contiguous_ranges l) n ↔ n ∈ l) := by
    cases l with
    | nil => refine ⟨by simp [contiguous_ranges], by simp [contiguous_ranges], ?_⟩
             intro n; simp [contiguous_ranges, inRanges]
    | cons x xs =>
        have hxs : (x :: xs).Chain' (· < ·) := hl
        refine ⟨?_, ?_, ?_⟩
        · exact crGo_bounds xs x x le_rfl (List.chain'_cons'.mp hxs).2 hxs
        · exact crGo_gaps xs x x le_rfl hxs
        · intro n
          rw [show contiguous_ranges (x :: xs) = crGo xs x x from rfl,
            crGo_mem xs x x le_rfl hxs n]
          simp only [List.mem_cons]
          constructor
          · rintro (⟨h1, h2⟩ | hm)
            · exact Or.inl (le_antisymm h2 h1)
            · exact Or.inr hm
          · rintro (rfl | hm)
            · exact Or.inl ⟨le_rfl, le_rfl⟩
            · exact Or.inr hm
  refine ⟨main.1, main.2.1, ?_, main.2.2, rfl, by decide⟩
  · have hb := main.1
    refine chain'_mono_mem _ ?_ main.2.1
    intro a ha b hb' hab
    have h1 := hb a ha
    have h2 := hb b hb'
    omega

/-- Witness for `contiguous_ranges_spec` at the concrete strictly increasing
input `[7, 8, 9, 11, 15, 16]`. -/
theorem contiguous_ranges_spec_witness :
    ([7, 8, 9, 11, 15, 16] : List Int).Chain' (· < ·) ∧
    (∀ n : Int, inRanges (contiguous_ranges [7, 8, 9, 11, 15, 16]) n ↔
      n ∈ ([7, 8, 9, 11, 15, 16] : List Int)) :=
  ⟨by norm_num [List.chain'_cons, List.chain'_singleton],
    (contiguous_ranges_spec [7, 8, 9, 11, 15, 16]
      (by norm_num [List.chain'_cons, List.chain'_singleton])).2.2.2.1⟩

/-! ### Competition ranking (source lines 409-416)

`work["순위"] = work["가격키"].rank(method="min", ascending=False)` sorts the
price keys descending and gives each row the position of the first
occurrence of its key (1-based); ties therefore share the minimum rank.
`work["공동세대수"] = work.groupby("가격키")["가격키"].transform("size")` is the
number of rows sharing the key. -/

def descRel (a b : ℚ) : Prop := b ≤ a

instance : DecidableRel descRel := fun a b => inferInstanceAs (Decidable (b ≤ a))

instance : IsTotal ℚ descRel := ⟨fun a b => le_total b a⟩

instance : IsTrans ℚ descRel := ⟨fun _ _ _ h1 h2 => le_trans h2 h1⟩

instance : IsAntisymm ℚ descRel := ⟨fun _ _ h1 h2 => le_antisymm h2 h1⟩

/-- The price-key column sorted descending (pandas sorts to assign ranks). -/
def sortDesc (l : List ℚ) : List ℚ := l.insertionSort descRel

/-- `rank(method="min", ascending=False)` of value `v` in column `l`:
1-based position of the first occurrence of `v` in the descending sort. -/
def rankMin (l : List ℚ) (v : ℚ) : ℕ := (sortDesc l).indexOf v + 1

/-- `groupby("가격키").transform("size")`: how many rows share key `v`. -/
def tieCount (l : List ℚ) (v : ℚ) : ℕ := l.count v

theorem sortDesc_perm (l : List ℚ) : List.Perm (sortDesc l) l :=
  List.perm_insertionSort _ _

theorem sortDesc_sorted (l : List ℚ) : (sortDesc l).Sorted descRel :=
  List.sorted_insertionSort _ _

theorem indexOf_sorted_desc :
    ∀ s : List ℚ, s.Sorted descRel → ∀ v : ℚ, v ∈ s →
      s.indexOf v = (s.filter (fun w => decide (v < w))).length := by
  intro s
  induction s with
  | nil => intro _ v hv; cases hv
  | cons h t ih =>
      intro hs v hv
      have hs' : t.Sorted descRel := (List.sorted_cons.mp hs).2
      have hall : ∀ b ∈ t, b ≤ h := (List.sorted_cons.mp hs).1
      by_cases hev : h = v
      · subst hev
        have hfilt : t.filter (fun w => decide (h < w)) = [] := by
          refine List.filter_eq_nil_iff.mpr ?_
          intro a ha
          simpa using not_lt_of_le (hall a ha)
        simp [List.indexOf_cons_self, List.filter_cons, hfilt]
      · have hvt : v ∈ t := by
          rcases List.mem_cons.mp hv with rfl | hvt
          · exact absurd rfl hev
          · exact hvt
        have hvh : v < h := lt_of_le_of_ne (hall v hvt) (fun e => hev e.symm)
        rw [List.indexOf_cons_ne _ hev, ih hs' v hvt]
        simp [List.filter_cons, hvh]

theorem rankMin_eq_one_add_card_gt (l : List ℚ) (v : ℚ) (hv : v ∈ l) :
    rankMin l v = 1 + (l.filter (fun w => decide (v < w))).length := by
  unfold rankMin
  have hmem : v ∈ sortDesc l := (sortDesc_perm l).mem_iff.mpr hv
  rw [indexOf_sorted_desc (sortDesc l) (sortDesc_sorted l) v hmem]
  have hperm := (sortDesc_perm l).filter (fun w => decide (v < w))
  rw [hperm.length_eq]
  omega

/-- C1: Competition ranking correctness: the rank of a record equals 1 plus
the number of records in the partition whose key is strictly greater (so
equal keys share the minimum rank), and on the concrete column
`[10, 9, 9, 8]` the ranks are `[1, 2, 2, 4]` with tie counts 2 for key 9
and 1 for keys 10 and 8. -/
theorem rank_competition_spec (l : List ℚ) (v : ℚ) (hv : v ∈ l) :
    rankMin l v = 1 + (l.filter (fun w => decide (v < w))).length ∧
    ([10, 9, 9, 8] : List ℚ).map (rankMin [10, 9, 9, 8]) = [1, 2, 2, 4] ∧
    tieCount [10, 9, 9, 8] 9 = 2 ∧
    tieCount [10, 9, 9, 8] 10 = 1 ∧
    tieCount [10, 9, 9, 8] 8 = 1 := by
  refine ⟨rankMin_eq_one_add_card_gt l v hv, ?_, ?_, ?_, ?_⟩ <;> decide

/-- Witness for `rank_competition_spec` at the concrete column
`[10, 9, 9, 8]` and value `9`. -/
theorem rank_competition_spec_witness :
    (9 : ℚ) ∈ ([10, 9, 9, 8] : List ℚ) ∧
    rankMin [10, 9, 9, 8] 9 =
      1 + (([10, 9, 9, 8] : List ℚ).filter (fun w => decide ((9 : ℚ) < w))).length :=
  ⟨by decide, (rank_competition_spec [10, 9, 9, 8] 9 (by decide)).1⟩

theorem sum_counts_eq_length :
    ∀ ks : List ℚ, ks.Nodup → ∀ l : List ℚ, (∀ x ∈ l, x ∈ ks) →
      (ks.map (fun k => l.count k)).sum = l.length := by
  intro ks
  induction ks with
  | nil =>
      intro _ l hl
      have hnil : l = [] :=
        List.eq_nil_iff_forall_not_mem.mpr (fun a ha => by simpa using hl a ha)
      subst hnil; simp
  | cons k ks ih =>
      intro hnd l hl
      have hnd' : ks.Nodup := (List.nodup_cons.mp hnd).2
      have hk : k ∉ ks := (List.nodup_cons.mp hnd).1
      have hsplit : l.length = l.count k + (l.filter (fun a => !(a == k))).length := by
        rw [← List.countP_eq_length_filter]
        simpa [List.count_eq_countP] using
          List.length_eq_countP_add_countP (p := (· == k)) (l := l)
      have hcounts : ∀ x ∈ ks, (l.filter (fun a => !(a == k))).count x = l.count x := by
        intro x hx
        refine List.count_filter ?_
        simp only [Bool.not_eq_true', beq_eq_false_iff_ne]
        exact fun e => hk (e ▸ hx)
      have hl'mem : ∀ x ∈ l.filter (fun a => !(a == k)), x ∈ ks := by
        intro x hx
        have hxl : x ∈ l := List.mem_of_mem_filter hx
        rcases List.mem_cons.mp (hl x hxl) with rfl | h
        · exfalso; have := List.of_mem_filter hx; simp at this
        · exact h
      have hrec := ih hnd' _ hl'mem
      calc ((k :: ks).map (fun j => l.count j)).sum
          = l.count k + (ks.map (fun j => l.count j)).sum := by simp
        _ = l.count k + (ks.map (fun j => (l.filter (fun a => !(a == k))).count j)).sum := by
              rw [List.map_congr_left (fun x hx => (hcounts x hx).symm)]
        _ = l.count k + (l.filter (fun a => !(a == k))).length := by rw [hrec]
        _ = l.length := hsplit.symm

theorem filter_gt_length_strict_mono (l : List ℚ) (v w : ℚ) (hw : w ∈ l) (hvw : v < w) :
    (l.filter (fun x => decide (w < x))).length <
      (l.filter (fun x => decide (v < x))).length := by
  have hsub : List.Sublist (l.filter (fun x => decide (w < x)))
      (l.filter (fun x => decide (v < x))) := by
    have he : l.filter (fun x => decide (w < x)) =
        (l.filter (fun x => decide (v < x))).filter (fun x => decide (w < x)) := by
      rw [List.filter_filter]
      refine (List.filter_congr ?_).symm
      intro a _
      by_cases h : w < a
      · simp [h, lt_trans hvw h]
      · simp [h]
    rw [he]
    exact List.filter_sublist _
  have hle : (l.filter (fun x => decide (w < x))).length ≤
      (l.filter (fun x => decide (v < x))).length := hsub.length_le
  rcases lt_or_eq_of_le hle with h | h
  · exact h
  · exfalso
    have heq := hsub.eq_of_length h
    have hwmem : w ∈ l.filter (fun x => decide (v < x)) :=
      List.mem_filter.mpr ⟨hw, by simpa using hvw⟩
    rw [← heq] at hwmem
    have := (List.mem_filter.mp hwmem).2
    simp at this

theorem rankMin_inj_on_mem (l : List ℚ) (v w : ℚ) (hv : v ∈ l) (hw : w ∈ l)
    (h : rankMin l v = rankMin l w) : v = w := by
  rcases lt_trichotomy v w with hlt | heq | hlt
  · exfalso
    rw [rankMin_eq_one_add_card_gt l v hv, rankMin_eq_one_add_card_gt l w hw] at h
    have := filter_gt_length_strict_mono l v w hw hlt
    omega
  · exact heq
  · exfalso
    rw [rankMin_eq_one_add_card_gt l v hv, rankMin_eq_one_add_card_gt l w hw] at h
    have := filter_gt_length_strict_mono l w v hv hlt
    omega

/-- C4: Ranking totality: every record of a partition with a defined key
gets a rank in `[1, N]`; distinct keys get distinct ranks (so rank groups
coincide with key groups); and the sizes of the distinct key groups (the
tie counts) sum to `N`. -/
theorem rank_totality_spec (l : List ℚ) (v : ℚ) (hv : v ∈ l) :
    1 ≤ rankMin l v ∧ rankMin l v ≤ l.length ∧
    (∀ w ∈ l, ∀ u ∈ l, rankMin l w = rankMin l u → w = u) ∧
    (l.dedup.map (fun k => tieCount l k)).sum = l.length := by
  refine ⟨Nat.le_add_left 1 _, ?_, ?_, ?_⟩
  · unfold rankMin
    have hmem : v ∈ sortDesc l := (sortDesc_perm l).mem_iff.mpr hv
    have hlt : (sortDesc l).indexOf v < (sortDesc l).length :=
      List.indexOf_lt_length.mpr hmem
    have hlen : (sortDesc l).length = l.length := (sortDesc_perm l).length_eq
    omega
  · exact fun w hw u hu => rankMin_inj_on_mem l w u hw hu
  · exact sum_counts_eq_length l.dedup l.nodup_dedup l (fun x hx => List.mem_dedup.mpr hx)

/-- Witness for `rank_totality_spec` at the concrete column `[10, 9, 9, 8]`
and value `9`. -/
theorem rank_totality_spec_witness :
    (9 : ℚ) ∈ ([10, 9, 9, 8] : List ℚ) ∧
    1 ≤ rankMin [10, 9, 9, 8] 9 ∧ rankMin [10, 9, 9, 8] 9 ≤ 4 :=
  ⟨by decide, (rank_totality_spec [10, 9, 9, 8] 9 (by decide)).1,
    (rank_totality_spec [10, 9, 9, 8] 9 (by decide)).2.1⟩

/-- C10: Ranker idempotence and permutation invariance: presenting the same
partition's rows in any other order yields the identical
(rank, tie count) assignment for every key. -/
theorem rank_perm_invariant (l l' : List ℚ) (h : List.Perm l l') (v : ℚ) :
    rankMin l v = rankMin l' v ∧ tieCount l v = tieCount l' v := by
  have hs : sortDesc l = sortDesc l' := by
    apply List.eq_of_perm_of_sorted
      ((sortDesc_perm l).trans (h.trans (sortDesc_perm l').symm))
      (sortDesc_sorted l) (sortDesc_sorted l')
  exact ⟨by unfold rankMin; rw [hs], h.count_eq v⟩

/-- Witness for `rank_perm_invariant`: the column `[10, 9, 9, 8]` and a
reordering of it assign the same rank and tie count to key `9`. -/
theorem rank_perm_invariant_witness :
    List.Perm ([10, 9, 9, 8] : List ℚ) [9, 8, 10, 9] ∧
    rankMin [10, 9, 9, 8] 9 = rankMin [9, 8, 10, 9] 9 ∧
    tieCount [10, 9, 9, 8] 9 = tieCount [9, 8, 10, 9] 9 :=
  ⟨by decide, (rank_perm_invariant [10, 9, 9, 8] [9, 8, 10, 9] (by decide) 9).1,
    (rank_perm_invariant [10, 9, 9, 8] [9, 8, 10, 9] (by decide) 9).2⟩

/-! ### Zone records, the selected-unit lookup and the co-rank group
(source lines 401-427 and 479-483)

A zone partition row carries the identifiers and the derived valuation
`감정가_클린` (`none` models NaN).  `work` keeps the rows with a defined
valuation; each row's `순위` is `rankMin` of its key in the key column and
its `공동세대수` is the key's tie count.  The code then looks the selected
key up with `subset["순위"].min()` / `subset["공동세대수"].max()` and builds
the co-rank group `grp = work[work["가격키"] == sel_key]`. -/

structure RawRec where
  zone : List Char
  dong : List Char
  ho : List Char
  price : Option ℚ
deriving DecidableEq

/-- `work = zone_df.dropna(subset=["감정가_클린"])` (lines 401-402). -/
def workOf (zdf : List RawRec) : List RawRec := zdf.filter (fun r => r.price.isSome)

/-- The `가격키` column of `work` (defined keys only, in row order). -/
def keysOf (zdf : List RawRec) : List ℚ := zdf.filterMap (fun r => r.price)

/-- A work row's key (its rows always have `price = some k`). -/
def keyD (r : RawRec) : ℚ := r.price.getD 0

/-- The row's `순위` entry. -/
def rowRank (zdf : List RawRec) (r : RawRec) : ℕ := rankMin (keysOf zdf) (keyD r)

/-- The row's `공동세대수` entry. -/
def rowTie (zdf : List RawRec) (r : RawRec) : ℕ := tieCount (keysOf zdf) (keyD r)

/-- `subset` / `grp`: the work rows whose key equals the selected key. -/
def grpOf (zdf : List RawRec) (k : ℚ) : List RawRec :=
  (workOf zdf).filter (fun r => decide (r.price = some k))

/-- `.min()` over a column, `None` when empty (pandas on an empty subset). -/
def listMin : List ℕ → Option ℕ
  | [] => none
  | x :: xs => some (xs.foldl Nat.min x)

/-- `.max()` over a column, with the code's `else 0` default. -/
def listMax0 : List ℕ → ℕ
  | [] => 0
  | x :: xs => xs.foldl Nat.max x

/-- Line 424: `sel_rank = int(subset["순위"].min()) if not subset.empty else None`. -/
def sel_rank (zdf : List RawRec) (k : ℚ) : Option ℕ :=
  listMin ((grpOf zdf k).map (rowRank zdf))

/-- Line 425: `sel_tied = int(subset["공동세대수"].max()) if not subset.empty else 0`. -/
def sel_tied (zdf : List RawRec) (k : ℚ) : ℕ :=
  listMax0 ((grpOf zdf k).map (rowTie zdf))

/-- Lines 419-427: the whole lookup for a selected row `r0`
(`sel_key` is NaN exactly when the row's valuation is, line 420). -/
def sel_rank_sel (zdf : List RawRec) (r0 : RawRec) : Option ℕ :=
  match r0.price with
  | none => none
  | some k => sel_rank zdf k

/-- Line 476: the summary is reported "not computable" when
`sel_rank is None or pd.isna(sel_key)`. -/
def notComputable (zdf : List RawRec) (r0 : RawRec) : Bool :=
  (sel_rank_sel zdf r0).isNone

theorem grp_price (zdf : List RawRec) (k : ℚ) :
    ∀ r ∈ grpOf zdf k, r.price = some k := by
  intro r hr
  exact of_decide_eq_true (List.mem_filter.mp hr).2

theorem grp_keyD (zdf : List RawRec) (k : ℚ) :
    ∀ r ∈ grpOf zdf k, keyD r = k := by
  intro r hr
  rw [keyD, grp_price zdf k r hr]
  rfl

theorem mem_grp (zdf : List RawRec) (k : ℚ) (r : RawRec) (hr : r ∈ zdf)
    (hp : r.price = some k) : r ∈ grpOf zdf k := by
  refine List.mem_filter.mpr ⟨List.mem_filter.mpr ⟨hr, ?_⟩, ?_⟩
  · simp [hp]
  · simp [hp]

theorem grp_length_eq_count (zdf : List RawRec) (k : ℚ) :
    (grpOf zdf k).length = (keysOf zdf).count k := by
  induction zdf with
  | nil => rfl
  | cons r zdf ih =>
      cases hr : r.price with
      | none =>
          have h1 : grpOf (r :: zdf) k = grpOf zdf k := by
            simp [grpOf, workOf, List.filter_cons, hr]
          have h2 : keysOf (r :: zdf) = keysOf zdf := by
            simp [keysOf, List.filterMap_cons, hr]
          rw [h1, h2, ih]
      | some q =>
          have h2 : keysOf (r :: zdf) = q :: keysOf zdf := by
            simp [keysOf, List.filterMap_cons, hr]
          by_cases hqk : q = k
          · have h1 : grpOf (r :: zdf) k = r :: grpOf zdf k := by
              simp [grpOf, workOf, List.filter_cons, hr, hqk]
            rw [h1, h2, List.length_cons, ih, hqk, List.count_cons_self]
          · have h1 : grpOf (r :: zdf) k = grpOf zdf k := by
              simp [grpOf, workOf, List.filter_cons, hr, hqk]
            rw [h1, h2, ih, List.count_cons_of_ne (Ne.symm hqk)]

theorem foldl_min_const : ∀ (xs : List ℕ) (c : ℕ), (∀ y ∈ xs, y = c) →
    xs.foldl Nat.min c = c
  | [], _, _ => rfl
  | x :: xs, c, h => by
      have hx : x = c := h x (List.mem_cons_self _ _)
      rw [List.foldl_cons, hx, show Nat.min c c = c by simp [Nat.min_def]]
      exact foldl_min_const xs c (fun y hy => h y (List.mem_cons_of_mem _ hy))

theorem foldl_max_const : ∀ (xs : List ℕ) (c : ℕ), (∀ y ∈ xs, y = c) →
    xs.foldl Nat.max c = c
  | [], _, _ => rfl
  | x :: xs, c, h => by
      have hx : x = c := h x (List.mem_cons_self _ _)
      rw [List.foldl_cons, hx, show Nat.max c c = c by simp [Nat.max_def]]
      exact foldl_max_const xs c (fun y hy => h y (List.mem_cons_of_mem _ hy))

theorem listMin_const (l : List ℕ) (c : ℕ) (hne : l ≠ []) (h : ∀ y ∈ l, y = c) :
    listMin l = some c := by
  cases l with
  | nil => exact absurd rfl hne
  | cons x xs =>
      have hx : x = c := h x (List.mem_cons_self _ _)
      simp only [listMin, hx, foldl_min_const xs c (fun y hy => h y (List.mem_cons_of_mem _ hy))]

theorem listMax0_const (l : List ℕ) (c : ℕ) (hne : l ≠ []) (h : ∀ y ∈ l, y = c) :
    listMax0 l = c := by
  cases l with
  | nil => exact absurd rfl hne
  | cons x xs =>
      have hx : x = c := h x (List.mem_cons_self _ _)
      simp only [listMax0, hx]
      exact foldl_max_const xs c (fun y hy => h y (List.mem_cons_of_mem _ hy))

theorem rowRank_grp_const (zdf : List RawRec) (k : ℚ) :
    ∀ y ∈ (grpOf zdf k).map (rowRank zdf), y = rankMin (keysOf zdf) k := by
  intro y hy
  obtain ⟨r, hr, rfl⟩ := List.mem_map.mp hy
  rw [rowRank, grp_keyD zdf k r hr]

theorem rowTie_grp_const (zdf : List RawRec) (k : ℚ) :
    ∀ y ∈ (grpOf zdf k).map (rowTie zdf), y = (grpOf zdf k).length := by
  intro y hy
  obtain ⟨r, hr, rfl⟩ := List.mem_map.mp hy
  rw [rowTie, grp_keyD zdf k r hr, tieCount, ← grp_length_eq_count]

theorem sel_rank_of_grp_ne_nil (zdf : List RawRec) (k : ℚ) (h : grpOf zdf k ≠ []) :
    sel_rank zdf k = some (rankMin (keysOf zdf) k) := by
  refine listMin_const _ _ ?_ (rowRank_grp_const zdf k)
  simpa using h

theorem sel_tied_of_grp_ne_nil (zdf : List RawRec) (k : ℚ) (h : grpOf zdf k ≠ []) :
    sel_tied zdf k = (grpOf zdf k).length := by
  refine listMax0_const _ _ ?_ (rowTie_grp_const zdf k)
  simpa using h

/-- C5: Co-rank group invariant: every work row whose key equals the
selected key carries the identical rank; each such row's recorded tie
count equals the size of the co-rank group; and the reported pair is
`sel_rank` = that common rank and `sel_tied` = the group size. -/
theorem corank_group_invariant (zdf : List RawRec) (k : ℚ) (h : grpOf zdf k ≠ []) :
    (∀ r ∈ grpOf zdf k, rowRank zdf r = rankMin (keysOf zdf) k) ∧
    (∀ r ∈ grpOf zdf k, rowTie zdf r = (grpOf zdf k).length) ∧
    sel_rank zdf k = some (rankMin (keysOf zdf) k) ∧
    sel_tied zdf k = (grpOf zdf k).length := by
  refine ⟨?_, ?_, sel_rank_of_grp_ne_nil zdf k h, sel_tied_of_grp_ne_nil zdf k h⟩
  · intro r hr
    exact rowRank_grp_const zdf k _ (List.mem_map.mpr ⟨r, hr, rfl⟩)
  · intro r hr
    exact rowTie_grp_const zdf k _ (List.mem_map.mpr ⟨r, hr, rfl⟩)

/-- Sample record used to witness the record-level theorems. -/
def wrec : RawRec := ⟨("1".data), ("35".data), ("702".data), some 10⟩

/-- Witness for `corank_group_invariant` at a one-row partition. -/
theorem corank_group_invariant_witness :
    grpOf [wrec] 10 ≠ [] ∧
    sel_rank [wrec] 10 = some (rankMin (keysOf [wrec]) 10) ∧
    sel_tied [wrec] 10 = (grpOf [wrec] 10).length :=
  ⟨by decide, (corank_group_invariant [wrec] 10 (by decide)).2.2.1,
    (corank_group_invariant [wrec] 10 (by decide)).2.2.2⟩

/-- C7: Co-rank summary applicability: for a selected row present in its
zone partition, the summary is "not computable" exactly when the row's
derived valuation is undefined; with a defined valuation the key lookup is
non-empty (it contains the selected row), a rank and tie count are
produced, and the summary is computed. -/
theorem corank_not_computable_iff (zdf : List RawRec) (r0 : RawRec) (h : r0 ∈ zdf) :
    (notComputable zdf r0 = true ↔ r0.price = none) ∧
    (∀ k : ℚ, r0.price = some k →
      grpOf zdf k ≠ [] ∧
      sel_rank zdf k = some (rankMin (keysOf zdf) k) ∧
      sel_tied zdf k = (grpOf zdf k).length ∧
      notComputable zdf r0 = false) := by
  have key : ∀ k : ℚ, r0.price = some k →
      grpOf zdf k ≠ [] ∧
      sel_rank zdf k = some (rankMin (keysOf zdf) k) ∧
      sel_tied zdf k = (grpOf zdf k).length ∧
      notComputable zdf r0 = false := by
    intro k hk
    have hmem : r0 ∈ grpOf zdf k := mem_grp zdf k r0 h hk
    have hne : grpOf zdf k ≠ [] := List.ne_nil_of_mem hmem
    refine ⟨hne, sel_rank_of_grp_ne_nil zdf k hne, sel_tied_of_grp_ne_nil zdf k hne, ?_⟩
    simp only [notComputable, sel_rank_sel, hk]
    rw [sel_rank_of_grp_ne_nil zdf k hne]
    rfl
  refine ⟨⟨?_, ?_⟩, key⟩
  · intro hnc
    cases hp : r0.price with
    | none => rfl
    | some k => rw [(key k hp).2.2.2] at hnc; cases hnc
  · intro hp
    simp only [notComputable, sel_rank_sel, hp]
    rfl

/-- Witness for `corank_not_computable_iff`: a one-row partition whose row
has a defined valuation is computable. -/
theorem corank_not_computable_iff_witness :
    wrec ∈ [wrec] ∧ notComputable [wrec] wrec = false :=
  ⟨List.mem_cons_self _ _,
    ((corank_not_computable_iff [wrec] wrec (List.mem_cons_self _ _)).2 10 rfl).2.2.2⟩

/-! ### Floor extraction (source `extract_floor`, lines 243-254)

`extract_floor` keeps the digit characters of the unit label; with no
digits the floor is NaN (`none`); with ≥ 3 digits it is `int(digits[:-2])`
(defensively NaN if that slice were empty); with 2 digits `int(digits[0])`;
with 1 digit `int(digits)`. -/

/-- `int(...)` of a non-empty digit string. -/
def digitsVal (ds : List Char) : ℕ :=
  ds.foldl (fun a c => 10 * a + (c.toNat - 48)) 0

def extract_floor (s : List Char) : Option ℕ :=
  let digits := s.filter (fun c => c.isDigit)
  if digits = [] then none
  else if 3 ≤ digits.length then
    if digits.take (digits.length - 2) = [] then none
    else some (digitsVal (digits.take (digits.length - 2)))
  else if digits.length = 2 then some (digitsVal (digits.take 1))
  else some (digitsVal digits)

/-- C8: Floor extraction heuristic: non-digit characters are discarded
(prepending a non-digit never changes the result); whenever at least one
digit is present the result is defined (in particular the defensive
`none` branch for an empty `digits[:-2]` slice with ≥ 3 digits is
unreachable); and `"702" ↦ 7`, `"1101" ↦ 11`, `"12" ↦ 1`, `"" ↦ none`. -/
theorem extract_floor_spec (c : Char) (s : List Char) (hc : c.isDigit = false) :
    extract_floor (c :: s) = extract_floor s ∧
    (∀ t : List Char, t.filter (fun d => d.isDigit) ≠ [] → extract_floor t ≠ none) ∧
    extract_floor ("702".data) = some 7 ∧
    extract_floor ("1101".data) = some 11 ∧
    extract_floor ("12".data) = some 1 ∧
    extract_floor ("".data) = none := by
  refine ⟨?_, ?_, by decide, by decide, by decide, by decide⟩
  · simp [extract_floor, List.filter_cons, hc]
  · intro t ht
    simp only [extract_floor]
    set ds := t.filter (fun d => d.isDigit) with hds
    by_cases h3 : 3 ≤ ds.length
    · have hne : ds.take (ds.length - 2) ≠ [] := by
        intro he
        have := congrArg List.length he
        rw [List.length_take] at this
        simp only [List.length_nil] at this
        omega
      simp [ht, h3, hne]
    · by_cases h2 : ds.length = 2
      · simp [ht, h3, h2]
      · simp [ht, h3, h2]

/-- Witness for `extract_floor_spec`: a leading non-digit letter is
discarded from the concrete label `"B702"`. -/
theorem extract_floor_spec_witness :
    Char.isDigit 'B' = false ∧
    extract_floor ('B' :: "702".data) = extract_floor ("702".data) ∧
    extract_floor ("702".data) = some 7 :=
  ⟨rfl, (extract_floor_spec 'B' ("702".data) rfl).1,
    (extract_floor_spec 'B' ("702".data) rfl).2.2.1⟩

/-! ### Valuation normalization (source `clean_price` lines 197-208 and the
`감정가_클린` derivation in `load_data`, lines 235-239)

`clean_price` removes the non-breaking space, comma, backtick, apostrophe
and the currency word `억` (U+C5B5), strips surrounding whitespace, deletes
every remaining character outside `[0-9.\-]`, and coerces to a number
(`none` models NaN).  `load_data` then computes
`derived = pd.to_numeric(공시가) / 0.7` — note the raw public value is fed
to `to_numeric` directly, WITHOUT `clean_price` — and falls back to the
cleaned appraisal column where `derived` is NaN:
`df["감정가_클린"] = derived.where(~derived.isna(), fallback)`. -/

/-- `.str.replace(x, "", regex=False)` for a single character. -/
def removeChar (x : Char) (s : List Char) : List Char :=
  s.filter (fun c => decide (c ≠ x))

/-- `.str.strip()`. -/
def stripSpaces (s : List Char) : List Char :=
  ((s.dropWhile (fun c => c.isWhitespace)).reverse.dropWhile
    (fun c => c.isWhitespace)).reverse

/-- `.str.replace(r"[^0-9.\-]", "", regex=True)`. -/
def keepNumeric (s : List Char) : List Char :=
  s.filter (fun c => c.isDigit || c = '.' || c = '-')

/-- Split at the first `'.'`: characters before it, and the rest after it
when a dot occurs. -/
def splitDot : List Char → List Char × Option (List Char)
  | [] => ([], none)
  | c :: cs =>
      if c = '.' then ([], some cs)
      else
        let p := splitDot cs
        (c :: p.1, p.2)

/-- Parse an unsigned decimal numeral (digits, at most one dot, at least
one digit overall), as Python's `float` does on the already-cleaned text. -/
def parseUnsigned (s : List Char) : Option ℚ :=
  match splitDot s with
  | (ip, none) =>
      if ip ≠ [] ∧ ip.all (fun c => c.isDigit) then some (mkRat (digitsVal ip) 1) else none
  | (ip, some rest) =>
      match splitDot rest with
      | (fp, none) =>
          if (ip ≠ [] ∨ fp ≠ []) ∧ ip.all (fun c => c.isDigit) ∧
              fp.all (fun c => c.isDigit) then
            some (mkRat (digitsVal ip * 10 ^ fp.length + digitsVal fp) (10 ^ fp.length))
          else none
      | (_, some _) => none

/-- Numeric coercion of a trimmed string, with an optional leading sign. -/
def parseDecimal : List Char → Option ℚ
  | '-' :: rest => (parseUnsigned rest).map (fun q => -q)
  | s => parseUnsigned s

/-- `clean_price` on one cell (source lines 197-208); a missing cell
(`astype(str)` turns NaN into `"nan"`, which cleans to `""`) is `none`. -/
def clean_price (s : List Char) : Option ℚ :=
  parseDecimal (keepNumeric (stripSpaces (removeChar '억' (removeChar (Char.ofNat 39)
    (removeChar (Char.ofNat 96) (removeChar ',' (removeChar (Char.ofNat 160) s)))))))

/-- `pd.to_numeric(..., errors="coerce")` on one raw cell. -/
def toNumericOpt : Option (List Char) → Option ℚ
  | none => none
  | some s => parseDecimal (stripSpaces s)

/-- `clean_price` lifted to a possibly missing cell. -/
def clean_price_opt : Option (List Char) → Option ℚ
  | none => none
  | some s => clean_price s

/-- Lines 236-239: `derived = pd.to_numeric(공시가) / 0.7` (divided by the
configured constant `c`), with the cleaned appraisal as fallback where
`derived` is NaN. -/
def normalize (pub app : Option (List Char)) (c : ℚ) : Option ℚ :=
  match toNumericOpt pub with
  | some p => some (p / c)
  | none => clean_price_opt app

/-- C3 counterexample: the claimed `normalize("12,3억", None, 0.69) =
123 / 0.69` is false on the code: the raw public value is passed to
`pd.to_numeric` WITHOUT noise cleaning, so `"12,3억"` coerces to NaN, the
appraisal fallback is also missing, and the result is undefined. -/
theorem normalize_noisy_public_counterexample :
    normalize (some ("12,3억".data)) none (69 / 100) = none ∧
    (none : Option ℚ) ≠ some (123 / (69 / 100)) := by
  exact ⟨by decide, by simp⟩

/-- C3 (amended): noise tokens are stripped only from the appraisal value
before parsing (so a comma or the currency word never changes
`clean_price`); the public value is parsed directly and, when it parses,
the result is `public / c`; otherwise the result is the cleaned appraisal
value, and `none` when neither parses: `clean_price("12,3억") = 123`,
`normalize(None, "50.5", c) = 50.5`, `normalize(None, None, c)` undefined,
and a noisy public value falls through to the appraisal fallback. -/
theorem normalize_amended_spec (pub app : Option (List Char)) (c : ℚ) :
    (∀ s : List Char, clean_price (',' :: s) = clean_price s) ∧
    (∀ s : List Char, clean_price (s ++ ['억']) = clean_price s) ∧
    (toNumericOpt pub = none → normalize pub app c = clean_price_opt app) ∧
    (∀ p : ℚ, toNumericOpt pub = some p → normalize pub app c = some (p / c)) ∧
    clean_price ("12,3억".data) = some 123 ∧
    normalize none (some ("50.5".data)) c = some (101 / 2) ∧
    normalize none none c = none ∧
    normalize (some ("12,3억".data)) (some ("12,3억".data)) c = some 123 := by
  refine ⟨?_, ?_, ?_, ?_, by decide, ?_, rfl, ?_⟩
  · intro s
    simp [clean_price, removeChar, List.filter_cons]
  · intro s
    simp [clean_price, removeChar, List.filter_append, List.filter_cons]
  · intro h
    simp [normalize, h]
  · intro p h
    simp [normalize, h]
  · show clean_price_opt (some ("50.5".data)) = some (101 / 2)
    simp [clean_price_opt, clean_price, keepNumeric, stripSpaces, removeChar,
      parseDecimal, parseUnsigned, splitDot, digitsVal]
    norm_num [Rat.mkRat_eq_div]
  · show clean_price_opt (some ("12,3억".data)) = some 123
    simp [clean_price_opt, clean_price, keepNumeric, stripSpaces, removeChar,
      parseDecimal, parseUnsigned, splitDot, digitsVal]

/-- Witness for `normalize_amended_spec` at the example inputs with the
configured ratio 0.69. -/
theorem normalize_amended_spec_witness :
    normalize none (some ("50.5".data)) (69 / 100) = some (101 / 2) :=
  (normalize_amended_spec none (some ("50.5".data)) (69 / 100)).2.2.2.2.2.1

/-! ### Nearest-value TOP10 ordering (source lines 569 and 578-581)

Each grouped row stores `"최소차(억)": round(best_diff, 2)` (line 569) —
the best diff ROUNDED to two decimals — and
`out = pd.DataFrame(rows).sort_values(["최소차(억)", "해당 세대수", "_z", "_d"],
ascending=[True, False, True, True]).head(10)` sorts lexicographically on
that rounded column ascending, unit count descending, zone number
ascending, building number ascending, then truncates to 10. -/

structure GRow where
  best_diff : ℚ
  cnt : ℕ
  z : ℕ
  d : ℕ
deriving DecidableEq

/-- Python `round(x)` at the rational level: nearest integer, halves to
even (the float-representation error of the binary inputs is outside the
rational model). -/
def roundHalfEven (x : ℚ) : ℤ :=
  let f := ⌊x⌋
  if x - (f : ℚ) < 1 / 2 then f
  else if (1 : ℚ) / 2 < x - (f : ℚ) then f + 1
  else if f % 2 = 0 then f else f + 1

/-- Python `round(x, 2)` of line 569. -/
def round2 (q : ℚ) : ℚ := (roundHalfEven (q * 100) : ℚ) / 100

/-- The `sort_values` key of lines 578-581: the primary component is the
stored `최소차(억)` column, i.e. `round(best_diff, 2)`, and the descending
count becomes an ascending negated integer. -/
def gKey (r : GRow) : Lex (ℚ × Lex (ℤ × Lex (ℕ × ℕ))) :=
  toLex (round2 r.best_diff, toLex (-(r.cnt : ℤ), toLex (r.z, r.d)))

def gLe (a b : GRow) : Prop := gKey a ≤ gKey b

instance : DecidableRel gLe :=
  fun a b => inferInstanceAs (Decidable (gKey a ≤ gKey b))

instance : IsTotal GRow gLe := ⟨fun a b => le_total (gKey a) (gKey b)⟩

instance : IsTrans GRow gLe := ⟨fun _ _ _ h1 h2 => le_trans h1 h2⟩

instance : IsRefl GRow gLe := ⟨fun _ => le_refl _⟩

/-- `sort_values(...).head(10)`. -/
def top10 (rows : List GRow) : List GRow := (rows.insertionSort gLe).take 10

theorem gLe_iff (a b : GRow) :
    gLe a b ↔ (round2 a.best_diff < round2 b.best_diff ∨
      (round2 a.best_diff = round2 b.best_diff ∧
      (b.cnt < a.cnt ∨ (a.cnt = b.cnt ∧
        (a.z < b.z ∨ (a.z = b.z ∧ a.d ≤ b.d)))))) := by
  unfold gLe gKey
  rw [Prod.Lex.le_iff, Prod.Lex.le_iff, Prod.Lex.le_iff]
  simp [neg_lt_neg_iff, Nat.cast_lt, neg_inj, Nat.cast_inj]

/-- Rows exhibiting the rounding bucket: raw best diffs 0.001 (1 unit)
and 0.004 (5 units) both round to 0.00 in the `최소차(억)` column. -/
def gA : GRow := ⟨1 / 1000, 1, 1, 1⟩

/-- See `gA`. -/
def gB : GRow := ⟨4 / 1000, 5, 1, 1⟩

theorem round2_milli : round2 ((1 : ℚ) / 1000) = 0 := by
  have hfl : ⌊(1 : ℚ) / 10⌋ = 0 := by
    rw [Int.floor_eq_iff]
    norm_num
  rw [round2, show ((1 : ℚ) / 1000) * 100 = 1 / 10 by norm_num]
  simp only [roundHalfEven, hfl]
  norm_num

theorem round2_four_milli : round2 ((4 : ℚ) / 1000) = 0 := by
  have hfl : ⌊(2 : ℚ) / 5⌋ = 0 := by
    rw [Int.floor_eq_iff]
    norm_num
  rw [round2, show ((4 : ℚ) / 1000) * 100 = 2 / 5 by norm_num]
  simp only [roundHalfEven, hfl]
  norm_num

/-- C6 counterexample: the TOP10 table is sorted on the stored
`round(best_diff, 2)` column (line 569), not on the raw best diff; the
groups `gA` (raw diff 0.001, 1 unit) and `gB` (raw diff 0.004, 5 units)
share the rounded key 0.00, so the unit-count tie-break puts `gB` first
and the raw best diff strictly DECREASES along the returned list,
refuting the claimed sort by (and monotonicity of) the raw best diff. -/
theorem top10_raw_best_diff_counterexample :
    top10 [gA, gB] = [gB, gA] ∧ gA.best_diff < gB.best_diff := by
  have hnle : ¬ gLe gA gB := by
    rw [gLe_iff]
    simp only [gA, gB]
    rw [round2_milli, round2_four_milli]
    norm_num
  have hsort : List.insertionSort gLe [gA, gB] = [gB, gA] := by
    simp [List.insertionSort, List.orderedInsert, hnle]
  refine ⟨?_, ?_⟩
  · rw [top10, hsort]
    rfl
  · show (1 : ℚ) / 1000 < 4 / 1000
    norm_num

/-- C6 (amended): Nearest-value output order and length: the TOP10 table
has at most 10 rows and is sorted by the lexicographic key whose primary
component is the stored, ROUNDED best diff `round(best_diff, 2)`
ascending, with ties broken by unit count descending, then zone number
ascending, then building number ascending — so the rounded best diff (the
displayed `최소차(억)` column) is non-decreasing along the returned list. -/
theorem top10_rounded_order_spec (rows : List GRow) :
    (top10 rows).length ≤ 10 ∧
    (top10 rows).Sorted gLe ∧
    (∀ a b : GRow, gLe a b ↔ (round2 a.best_diff < round2 b.best_diff ∨
      (round2 a.best_diff = round2 b.best_diff ∧ (b.cnt < a.cnt ∨ (a.cnt = b.cnt ∧
        (a.z < b.z ∨ (a.z = b.z ∧ a.d ≤ b.d))))))) ∧
    (∀ i j : Fin (top10 rows).length, i ≤ j →
      round2 ((top10 rows).get i).best_diff ≤ round2 ((top10 rows).get j).best_diff) := by
  have hsorted : (top10 rows).Sorted gLe :=
    List.Pairwise.sublist (List.take_sublist 10 _) (List.sorted_insertionSort gLe rows)
  refine ⟨?_, hsorted, gLe_iff, ?_⟩
  · rw [top10, List.length_take]
    exact min_le_left _ _
  · intro i j hij
    have hg : gLe ((top10 rows).get i) ((top10 rows).get j) :=
      hsorted.rel_get_of_le hij
    rcases (gLe_iff _ _).mp hg with hlt | ⟨heq, _⟩
    · exact le_of_lt hlt
    · exact le_of_eq heq

/-- Sample row used to witness the TOP10 ordering theorem. -/
def wrow : GRow := ⟨1, 2, 3, 4⟩

/-- Witness for `top10_rounded_order_spec` on a concrete one-row table. -/
theorem top10_rounded_order_spec_witness :
    round2 (((top10 [wrow]).get ⟨0, by decide⟩).best_diff) ≤
      round2 (((top10 [wrow]).get ⟨0, by decide⟩).best_diff) :=
  (top10_rounded_order_spec [wrow]).2.2.2 ⟨0, by decide⟩ ⟨0, by decide⟩ (le_refl _)

/-! ### Nearest-value pool: selected-unit exclusion (source lines 539-544)

`pool = pool[~((pool["구역"] == zone) & (pool["동"] == dong) &
(pool["호"] == ho) & (np.isclose(pool["감정가_클린"], sel_price, rtol=0,
atol=1e-6)))]` — `np.isclose` with `rtol=0` holds iff
`|value - sel_price| <= 1e-6`. -/

structure PRec where
  zone : List Char
  dong : List Char
  ho : List Char
  price : ℚ
deriving DecidableEq

/-- The boolean mask of the exclusion filter for one row. -/
def dupSelected (z d h : List Char) (sp : ℚ) (r : PRec) : Bool :=
  decide (r.zone = z) && decide (r.dong = d) && decide (r.ho = h) &&
    decide (|r.price - sp| ≤ 1 / 1000000)

/-- The pool after removing the rows matching the selected unit. -/
def poolExcl (l : List PRec) (z d h : List Char) (sp : ℚ) : List PRec :=
  l.filter (fun r => ! dupSelected z d h sp r)

theorem dupSelected_iff (z d h : List Char) (sp : ℚ) (r : PRec) :
    dupSelected z d h sp r = true ↔
      (r.zone = z ∧ r.dong = d ∧ r.ho = h ∧ |r.price - sp| ≤ 1 / 1000000) := by
  simp [dupSelected, and_assoc]

/-- C9: Selected-unit exclusion from the nearest-value pool: a row is kept
iff it was in the pool and it is NOT the case that its zone, building and
unit label all equal the selected unit's and its value is within absolute
tolerance `1e-6` of the selected value; in particular a row matching all
three identifiers whose value differs by more than the tolerance remains
in the pool. -/
theorem pool_exclusion_spec (l : List PRec) (z d h : List Char) (sp : ℚ) (r : PRec) :
    (r ∈ poolExcl l z d h sp ↔
      r ∈ l ∧ ¬(r.zone = z ∧ r.dong = d ∧ r.ho = h ∧ |r.price - sp| ≤ 1 / 1000000)) ∧
    (r ∈ l → r.zone = z → r.dong = d → r.ho = h → 1 / 1000000 < |r.price - sp| →
      r ∈ poolExcl l z d h sp) := by
  have hmain : r ∈ poolExcl l z d h sp ↔
      r ∈ l ∧ ¬(r.zone = z ∧ r.dong = d ∧ r.ho = h ∧ |r.price - sp| ≤ 1 / 1000000) := by
    constructor
    · intro hm
      obtain ⟨hl, hb⟩ := List.mem_filter.mp hm
      refine ⟨hl, fun hc => ?_⟩
      have hd := (dupSelected_iff z d h sp r).mpr hc
      rw [hd] at hb
      cases hb
    · rintro ⟨hl, hnc⟩
      refine List.mem_filter.mpr ⟨hl, ?_⟩
      have hd : dupSelected z d h sp r = false := by
        rcases Bool.eq_false_or_eq_true (dupSelected z d h sp r) with ht | hf
        · exact absurd ((dupSelected_iff z d h sp r).mp ht) hnc
        · exact hf
      rw [hd]
      rfl
  refine ⟨hmain, ?_⟩
  intro hl hz hd hh hgt
  exact hmain.mpr ⟨hl, fun hc => absurd hc.2.2.2 (not_le_of_lt hgt)⟩

/-- Sample pool row used to witness the exclusion theorem. -/
def wprec : PRec := ⟨("1".data), ("35".data), ("702".data), 50⟩

/-- Witness for `pool_exclusion_spec`: a row matching the selected unit's
identifiers but whose value is 10 away from the selected value stays. -/
theorem pool_exclusion_spec_witness :
    wprec ∈ poolExcl [wprec] ("1".data) ("35".data) ("702".data) 60 :=
  (pool_exclusion_spec [wprec] ("1".data) ("35".data) ("702".data) 60 wprec).2
    (List.mem_cons_self _ _) rfl rfl rfl (by norm_num [lt_abs, wprec])

end Apg
